import Mathlib

/-
Verification of the persistent-phylogeny Hasse-diagram builder and driver
output logic.

Shallow embedding of:
  - hdgraph.hpp (data structures, operator<<, add_vertex/add_edge overloads,
    num_vertices),
  - hdgraph.cpp (is_included, hasse_diagram with its final transitive
    reduction loop),
  - main.cpp (option conflict check, per-file processing loop, Ok/No output
    lines).

Conventions of the embedding:
  - Hasse vertices are identified by their insertion index (boost::listS
    vertex iteration order is insertion order, and hasse_diagram only ever
    appends vertices).  The vertex list stores the bundled properties.
  - Edges are kept in a list in insertion order; boost::setS guarantees at
    most one edge per (source, target) pair, which the embedding reflects in
    the add_edge semantics (an existing pair is returned instead of added).
  - The red-black graph type RBGraph lives in headers that are not part of
    the sources; hasse_diagram only reads, for each species vertex, its name
    and the list of names of its adjacent character vertices (in adjacency
    iteration order).  The embedding therefore takes that extracted data,
    a list of (species name, adjacent character names) pairs, as input.
  - std::sort(sets, ascending_size) sorts the per-species records by size
    (1 + number of adjacent characters) ascending; it is modelled by an
    insertion sort with the same comparator (the properties proved below do
    not depend on how ties are ordered).
-/

namespace PPP

/-- State of a signed character: `enum class State : bool { lose, gain }`. -/
inductive State where
  | lose
  | gain
deriving DecidableEq, Repr, Inhabited

/-- Signed character: a character name paired with a state (hdgraph.hpp). -/
structure SignedCharacter where
  character : String
  state : State
deriving DecidableEq, Repr, Inhabited

/-- Bundled vertex properties of the Hasse diagram (HDVertexProperties). -/
structure HDVertexProps where
  species : List String
  characters : List String
deriving DecidableEq, Repr, Inhabited

/-- One edge of the Hasse diagram: source index, target index and the bundled
HDEdgeProperties signed-character list. -/
structure HDEdgeRec where
  src : Nat
  tgt : Nat
  signedcharacters : List SignedCharacter
deriving DecidableEq, Repr, Inhabited

/-- The Hasse diagram: vertex property list (index = vertex descriptor),
edge list, and the graph-bundle field num_v of HDGraphProperties. -/
structure HDGraph where
  verts : List HDVertexProps
  edges : List HDEdgeRec
  num_v : Nat
deriving DecidableEq, Repr, Inhabited

/-- Characters list of vertex i (empty when i is out of range). -/
def charsOf (verts : List HDVertexProps) (i : Nat) : List String :=
  (verts.map (fun v => v.characters)).getD i []

/-- Species list of vertex i (empty when i is out of range). -/
def speciesOf (verts : List HDVertexProps) (i : Nat) : List String :=
  (verts.map (fun v => v.species)).getD i []

/-- Boolean edge test: does the edge list hold an edge p -> q. -/
def hasEdgeB (es : List HDEdgeRec) (p q : Nat) : Bool :=
  es.any (fun e => e.src == p && e.tgt == q)

/-- Propositional edge relation on an edge list. -/
def hasEdge (es : List HDEdgeRec) (p q : Nat) : Prop :=
  ∃ e ∈ es, e.src = p ∧ e.tgt = q

/-- Embedding of is_included (hdgraph.cpp lines 104-117): scan a, exiting
with false at the first string of a not found in b. -/
def is_included : List String → List String → Bool
  | [], _ => true
  | x :: xs, b => if b.contains x then is_included xs b else false

/-- Embedding of the custom add_vertex (hdgraph.cpp lines 9-19):
boost::add_vertex appends a vertex, then its species and characters bundles
are assigned.  Returns the new vertex descriptor (its index) and the updated
graph.  The graph-bundle num_v field is not touched. -/
def add_vertex (species characters : List String) (h : HDGraph) : Nat × HDGraph :=
  (h.verts.length, { h with verts := h.verts ++ [⟨species, characters⟩] })

/-- Embedding of num_vertices (hdgraph.hpp lines 319-321): it returns the
graph-bundle num_v field, not the size of the vertex set. -/
def num_vertices (h : HDGraph) : Nat :=
  h.num_v

/-- boost::add_edge(u, v, hasse) for an adjacency_list with setS out-edge
storage: when an edge u -> v already exists, the existing edge is returned
with flag false; otherwise a new edge with default (empty) bundle is
appended and the flag is true. -/
def addEdgeRaw (es : List HDEdgeRec) (u v : Nat) : List HDEdgeRec × Bool :=
  if hasEdgeB es u v then (es, false) else (es ++ [⟨u, v, []⟩], true)

/-- Assignment hasse[e].signedcharacters = scs through the descriptor of the
edge u -> v: the (unique, by setS) edge with that source and target gets the
new label list; the embedding replaces the first such edge. -/
def setLabelFirst : List HDEdgeRec → Nat → Nat → List SignedCharacter → List HDEdgeRec
  | [], _, _, _ => []
  | e :: es, u, v, scs =>
    if e.src == u && e.tgt == v then { e with signedcharacters := scs } :: es
    else e :: setLabelFirst es u v scs

/-- Embedding of the custom four-argument add_edge (hdgraph.cpp lines
21-33): boost::add_edge(u, v, hasse) followed by the assignment
hasse[e].signedcharacters = signedcharacters.  Returns the edge descriptor
(source, target), the boost flag, and the updated graph. -/
def add_edge (u v : Nat) (scs : List SignedCharacter) (h : HDGraph) :
    (Nat × Nat) × Bool × HDGraph :=
  let r := addEdgeRaw h.edges u v
  ((u, v), r.2, { h with edges := setLabelFirst r.1 u v scs })

/-- One step of hdgraph.cpp lines 292-296 for a pair (w, c) of new_edges:
boost::add_edge(w, u, hasse) (which finds the existing w -> u edge if one
was created by an earlier pair) followed by
hasse[edge].signedcharacters.push_back({c, State::gain}). -/
def findAttach : List HDEdgeRec → Nat → Nat → String → List HDEdgeRec
  | [], w, u, c => [⟨w, u, [⟨c, State.gain⟩]⟩]
  | e :: es, w, u, c =>
    if e.src == w && e.tgt == u then
      { e with signedcharacters := e.signedcharacters ++ [⟨c, State.gain⟩] } :: es
    else e :: findAttach es w u c

/-- Fold of findAttach over the collected new_edges pairs (hdgraph.cpp
lines 290-296). -/
def attachPairs (es : List HDEdgeRec) (u : Nat) (pairs : List (Nat × String)) :
    List HDEdgeRec :=
  pairs.foldl (fun acc p => findAttach acc p.1 u p.2) es

/-- The new_edges list collected by hdgraph.cpp lines 217-276: for each
existing Hasse vertex hdv (in vertex order) whose character list lhdv is
included in lcv, one pair (hdv, ci) for each ci of lcv (in lcv order) not
found in lhdv. -/
def pairsFor (verts : List HDVertexProps) (lcv : List String) : List (Nat × String) :=
  (List.range verts.length).flatMap fun i =>
    if is_included (charsOf verts i) lcv then
      ((lcv.filter (fun c => !((charsOf verts i).contains c))).map (fun c => (i, c)))
    else []

/-- Scan of the Hasse vertices for one with characters list-equal to lcv
(hdgraph.cpp line 245, using std::list operator== element-wise equality),
returning the index of the first match. -/
def findEqChars : List HDVertexProps → List String → Option Nat
  | [], _ => none
  | v :: vs, lcv =>
    if v.characters == lcv then some 0
    else (findEqChars vs lcv).map (fun i => i + 1)

/-- hasse[*hdv].species.push_back(name) (hdgraph.cpp line 252) at vertex
index i. -/
def appendSpeciesAt : List HDVertexProps → Nat → String → List HDVertexProps
  | [], _, _ => []
  | v :: vs, 0, nm => { v with species := v.species ++ [nm] } :: vs
  | v :: vs, i + 1, nm => v :: appendSpeciesAt vs i nm

/-- Body of the main species loop of hasse_diagram (hdgraph.cpp lines
181-341) for one species with name s.1 and adjacent character name list
s.2: if some existing vertex has a list-equal character list, the species
name is appended to that vertex (lines 245-255); otherwise a vertex for the
species is added and the collected new_edges are attached (lines 257-328).
The first loop iteration (i == 0, lines 193-204) adds the vertex to the
then-empty diagram, which coincides with the findEqChars-none branch. -/
def buildStep (g : HDGraph) (s : String × List String) : HDGraph :=
  match findEqChars g.verts s.2 with
  | some i => { g with verts := appendSpeciesAt g.verts i s.1 }
  | none =>
    let pairs := pairsFor g.verts s.2
    let r := add_vertex [s.1] s.2 g
    { r.2 with edges := attachPairs r.2.edges r.1 pairs }

/-- Size comparator ascending_size used by std::sort on sets: each record
of sets is the species vertex followed by its adjacent characters, so the
comparison by record size is comparison by number of adjacent characters. -/
def sizeLE (a b : String × List String) : Prop :=
  a.2.length ≤ b.2.length

instance : DecidableRel sizeLE := fun a b => Nat.decLe a.2.length b.2.length

/-- The diagram built by the species loop of hasse_diagram before its final
transitive-reduction loop: species sorted by ascending size, then folded
through buildStep starting from the empty out-parameter diagram. -/
def buildDiagram (g : List (String × List String)) : HDGraph :=
  (List.insertionSort sizeLE g).foldl buildStep ⟨[], [], 0⟩

/-- One turn of the transitive-reduction loop (hdgraph.cpp lines 348-381)
at vertex u: if u has in-degree 0 or out-degree 0 it is skipped; otherwise,
for every in-edge (p, u) and out-edge (u, q), the edge (p, q) is removed if
it exists.  Removed edges are never incident to u (the diagrams built above
have no self-loops), so the in/out edge lists of u are unchanged while u is
processed and the turn amounts to one filter over the edge list. -/
def pruneStep (es : List HDEdgeRec) (u : Nat) : List HDEdgeRec :=
  if (es.filter (fun e => e.tgt == u)).length == 0 ||
     (es.filter (fun e => e.src == u)).length == 0 then es
  else es.filter (fun e => !(hasEdgeB es e.src u && hasEdgeB es u e.tgt))

/-- Edge list after the transitive-reduction loop has processed vertices
0, 1, ..., t-1 (in vertex iteration order). -/
def prunedEdges (es0 : List HDEdgeRec) (t : Nat) : List HDEdgeRec :=
  (List.range t).foldl pruneStep es0

/-- Embedding of hasse_diagram (hdgraph.cpp lines 119-382): build the
diagram from the species of the graph, then run the final transitive
reduction loop over all vertices. -/
def hasse_diagram (g : List (String × List String)) : HDGraph :=
  let b := buildDiagram g
  { b with edges := prunedEdges b.edges b.verts.length }

/-- Edge relation of a Hasse diagram. -/
def HDGraph.edgeRel (h : HDGraph) (p q : Nat) : Prop :=
  hasEdge h.edges p q

/-- Lexicographic comparison of character-name data, used to state the
sorted order the spec prescribes. -/
def strLexLE : List Char → List Char → Bool
  | [], _ => true
  | _ :: _, [] => false
  | a :: as, b :: bs =>
    if a.val < b.val then true
    else if b.val < a.val then false
    else strLexLE as bs

/-- Lexicographic order on character names. -/
def strLE (a b : String) : Bool :=
  strLexLE a.data b.data

/-- Insertion of a name into a lexicographically sorted list. -/
def insertStr (x : String) : List String → List String
  | [] => [x]
  | y :: ys => if strLE x y then x :: y :: ys else y :: insertStr x ys

/-- Lexicographic sort of a list of names. -/
def sortStr : List String → List String
  | [] => []
  | x :: xs => insertStr x (sortStr xs)

/-- The label the spec prescribes for an edge (u -> v): the names of
characters(v) minus characters(u) sorted lexicographically by character
name, each tagged gain.  This definition follows the spec words (claim C1)
and is compared against what the code computes. -/
def sortedGainLabel (cu cv : List String) : List SignedCharacter :=
  (sortStr (cv.filter (fun c => !(cu.contains c)))).map (fun c => ⟨c, State.gain⟩)

/-- Label the code computes for an edge from a vertex with characters cu to
one with characters cv: the members of cv not contained in cu, in cv
order, each tagged gain. -/
def gainLabel (cu cv : List String) : List SignedCharacter :=
  (cv.filter (fun c => !(cu.contains c))).map (fun c => ⟨c, State.gain⟩)

/-- Rendering of a State by operator<< (hdgraph.hpp lines 157-161):
sign = (s == State::lose); "-" when sign holds, "+" otherwise. -/
def State.render (s : State) : String :=
  if s == State.lose then "-" else "+"

/-- Rendering of a SignedCharacter by operator<< (hdgraph.hpp lines
171-173): the character name followed by its state. -/
def SignedCharacter.render (sc : SignedCharacter) : String :=
  sc.character ++ sc.state.render

/-- The reduction stringstream of main.cpp lines 141-145: each signed
character of the output list rendered and followed by one space. -/
def reductionString : List SignedCharacter → String
  | [] => ""
  | sc :: rest => sc.render ++ " " ++ reductionString rest

/-- The success line of main.cpp lines 162-163 (after the carriage
return): "Ok (" << file << ") < " << reduction.str() << ">". -/
def okLine (file red : String) : String :=
  "Ok (" ++ file ++ ") < " ++ red ++ ">"

/-- The failure line of main.cpp lines 128 and 166 (after the carriage
return): "No (" << file << ") " << e.what(). -/
def noLine (file what : String) : String :=
  "No (" ++ file ++ ") " ++ what

/-- List of strings separated by single spaces, used to state the output
format the spec prescribes. -/
def spaceSeparated : List String → String
  | [] => ""
  | [x] => x
  | x :: rest => x ++ " " ++ spaceSeparated rest

/-- Body of the per-file loop of main.cpp lines 118-168.  read_graph and
reduce live in headers outside the sources, so they enter as parameters:
readG returns the exception message of a failed read_graph (caught at lines
127-131), reduceFn returns none when reduce throws NoReduction, and check
is the external check_reduction verifier applied to the file name and the
reduction string.  When the verifier returns false the code throws
NoReduction itself (line 160), so both NoReduction paths print the noLine
with the NoReduction message noRedMsg. -/
def processFile (readG : String → Except String Unit)
    (reduceFn : String → Option (List SignedCharacter))
    (check : String → String → Bool) (noRedMsg : String) (file : String) : String :=
  match readG file with
  | .error msg => noLine file msg
  | .ok _ =>
    match reduceFn file with
    | none => noLine file noRedMsg
    | some scs =>
      if check file (reductionString scs) then okLine file (reductionString scs)
      else noLine file noRedMsg

/-- The per-file loop of main.cpp lines 118-168: one output line per file;
a failed file prints its No line (the catch handlers end in continue or
fall through to the next iteration) and the loop moves to the next file. -/
def processFiles (readG : String → Except String Unit)
    (reduceFn : String → Option (List SignedCharacter))
    (check : String → String → Bool) (noRedMsg : String) : List String → List String
  | [] => []
  | f :: fs =>
    processFile readG reduceFn check noRedMsg f ::
      processFiles readG reduceFn check noRedMsg fs

/-- Parsed command-line options of main.cpp.  Each Bool records whether the
corresponding bool_switch option was passed on the command line (for a
passed switch the stored value is true and vm[opt].defaulted() is false). -/
structure Options where
  help : Bool
  verbose : Bool
  exponential : Bool
  interactive : Bool
  files : List String

/-- Embedding of conflicting_options (main.cpp lines 6-14): when both
options were passed (present and not defaulted), a logic_error carrying the
conflict message is thrown; the embedding returns it as some message. -/
def conflicting_options (passed1 passed2 : Bool) (opt1 opt2 : String) : Option String :=
  if passed1 && passed2 then
    some ("conflicting options --" ++ opt1 ++ " and --" ++ opt2)
  else none

/-- Result of a run of main: an early exit with a code and an error
message, or the list of per-file output lines. -/
inductive MainResult where
  | exitCode (code : Nat) (message : String)
  | outputs (lines : List String)
deriving DecidableEq, Repr

/-- Embedding of main (main.cpp lines 78-170) after boost option parsing:
conflicting_options is checked inside the try block and its logic_error is
caught at lines 93-100, printing "Error: " << e.what() << "." and
returning 1; then the help and missing-files early exits; then the
per-file loop. -/
def mainRun (opts : Options) (readG : String → Except String Unit)
    (reduceFn : String → Option (List SignedCharacter))
    (check : String → String → Bool) (noRedMsg : String) : MainResult :=
  match conflicting_options opts.exponential opts.interactive
      "exponential" "interactive" with
  | some msg => .exitCode 1 ("Error: " ++ msg ++ ".")
  | none =>
    if opts.help then .exitCode 1 "Usage: ppp [OPTION...] FILE..."
    else if opts.files.isEmpty then .exitCode 1 "Error: No input file specified."
    else .outputs (processFiles readG reduceFn check noRedMsg opts.files)

/-- Derived characterization of the edges attached for a freshly created
vertex u with character list lcv: one edge per earlier vertex i whose
character list is included in lcv with at least one character of lcv
missing, labeled by the missing characters in lcv order tagged gain. -/
def edgesFor (verts : List HDVertexProps) (lcv : List String) (u : Nat) :
    List HDEdgeRec :=
  (List.range verts.length).filterMap fun i =>
    if is_included (charsOf verts i) lcv &&
        !((lcv.filter (fun c => !((charsOf verts i).contains c))).isEmpty) then
      some ⟨i, u, gainLabel (charsOf verts i) lcv⟩
    else none

end PPP

namespace PPP

/-! Helper lemmas. -/

theorem contains_iff (l : List String) (x : String) :
    l.contains x = true ↔ x ∈ l := by
  simp [List.contains_eq_any_beq, List.any_eq_true]

theorem is_included_iff (a b : List String) :
    is_included a b = true ↔ ∀ x ∈ a, x ∈ b := by
  induction a with
  | nil => simp [is_included]
  | cons x xs ih =>
    simp only [is_included]
    by_cases h : b.contains x = true
    · rw [if_pos h, ih]
      constructor
      · intro hall y hy
        rcases List.mem_cons.mp hy with he | hm
        · exact he ▸ (contains_iff b x).mp h
        · exact hall y hm
      · intro hall y hy
        exact hall y (List.mem_cons_of_mem x hy)
    · rw [if_neg h]
      simp only [Bool.false_eq_true, false_iff]
      intro hall
      exact h ((contains_iff b x).mpr (hall x (List.mem_cons_self x xs)))

theorem is_included_trans {a b c : List String}
    (hab : is_included a b = true) (hbc : is_included b c = true) :
    is_included a c = true := by
  rw [is_included_iff] at *
  exact fun x hx => hbc x (hab x hx)

theorem reductionString_spaceSeparated (scs : List SignedCharacter)
    (h : scs ≠ []) :
    reductionString scs ++ ">" =
      spaceSeparated (scs.map SignedCharacter.render) ++ " >" := by
  induction scs with
  | nil => exact absurd rfl h
  | cons sc rest ih =>
    cases rest with
    | nil =>
      show sc.render ++ " " ++ "" ++ ">" = sc.render ++ " >"
      rw [String.append_empty, String.append_assoc]
      rfl
    | cons sc2 rest2 =>
      show sc.render ++ " " ++ reductionString (sc2 :: rest2) ++ ">" =
        sc.render ++ " " ++
          spaceSeparated ((sc2 :: rest2).map SignedCharacter.render) ++ " >"
      rw [String.append_assoc (sc.render ++ " ") (reductionString (sc2 :: rest2)) ">",
        ih (by simp),
        String.append_assoc (sc.render ++ " ")
          (spaceSeparated ((sc2 :: rest2).map SignedCharacter.render)) " >"]

/-! Claim C4. -/

/-- C4: on success the program prints a line of the form
"Ok (file) < c1+ c2- ... >" with the signed characters separated by single
spaces and wrapped in angle brackets, each rendered as its name followed by
"+" for gain and "-" for lose; on failure it prints "No (file) reason". -/
theorem output_line_format :
    (∀ (file : String) (scs : List SignedCharacter), scs ≠ [] →
      okLine file (reductionString scs) =
        "Ok (" ++ file ++ ") < " ++
          spaceSeparated (scs.map SignedCharacter.render) ++ " >") ∧
    (∀ sc : SignedCharacter,
      (sc.state = State.gain →
        SignedCharacter.render sc = sc.character ++ "+") ∧
      (sc.state = State.lose →
        SignedCharacter.render sc = sc.character ++ "-")) ∧
    (∀ file what : String, noLine file what = "No (" ++ file ++ ") " ++ what) := by
  refine ⟨fun file scs h => ?_, fun sc => ⟨fun h => ?_, fun h => ?_⟩, fun _ _ => rfl⟩
  · show "Ok (" ++ file ++ ") < " ++ reductionString scs ++ ">" = _
    rw [String.append_assoc, reductionString_spaceSeparated scs h,
      ← String.append_assoc]
  · simp [SignedCharacter.render, State.render, h]
  · simp [SignedCharacter.render, State.render, h]

/-- C4 witness: the format theorem evaluated on the concrete sequence
c1+ c2- for the file "m.txt". -/
theorem output_line_format_witness :
    ([(⟨"c1", State.gain⟩ : SignedCharacter), ⟨"c2", State.lose⟩] ≠ []) ∧
      okLine "m.txt"
          (reductionString [⟨"c1", State.gain⟩, ⟨"c2", State.lose⟩]) =
        "Ok (" ++ "m.txt" ++ ") < " ++
          spaceSeparated
            ([(⟨"c1", State.gain⟩ : SignedCharacter),
              ⟨"c2", State.lose⟩].map SignedCharacter.render) ++ " >" :=
  ⟨by decide,
    output_line_format.1 "m.txt" [⟨"c1", State.gain⟩, ⟨"c2", State.lose⟩]
      (by decide)⟩

/-! Claim C5. -/

/-- C5: when the reduction driver returns a sequence but the external
verifier check_reduction returns false on the file and the rendered
sequence, the per-file processing prints the No line for that file (the
code throws NoReduction at main.cpp line 160, caught at lines 165-167),
never the Ok line. -/
theorem verifier_false_reports_no :
    ∀ (readG : String → Except String Unit)
      (reduceFn : String → Option (List SignedCharacter))
      (check : String → String → Bool) (noRedMsg file : String)
      (scs : List SignedCharacter),
      readG file = Except.ok () →
      reduceFn file = some scs →
      check file (reductionString scs) = false →
      processFile readG reduceFn check noRedMsg file = noLine file noRedMsg ∧
      ∃ rest, processFile readG reduceFn check noRedMsg file =
        "No (" ++ file ++ ") " ++ rest := by
  intro readG reduceFn check noRedMsg file scs h1 h2 h3
  refine ⟨?_, noRedMsg, ?_⟩ <;> simp [processFile, h1, h2, h3, noLine]

/-- C5 witness: concrete oracles where the verifier rejects the produced
sequence for file "m.txt". -/
theorem verifier_false_reports_no_witness :
    ((fun _ : String => (Except.ok () : Except String Unit)) "m.txt" =
      (Except.ok () : Except String Unit)) ∧
    ((fun _ : String => some [(⟨"c1", State.gain⟩ : SignedCharacter)]) "m.txt" =
      some [(⟨"c1", State.gain⟩ : SignedCharacter)]) ∧
    ((fun _ _ : String => false) "m.txt"
      (reductionString [(⟨"c1", State.gain⟩ : SignedCharacter)]) = false) ∧
    (processFile (fun _ => (Except.ok () : Except String Unit))
        (fun _ => some [(⟨"c1", State.gain⟩ : SignedCharacter)])
        (fun _ _ => false) "nored" "m.txt" = noLine "m.txt" "nored" ∧
      ∃ rest, processFile (fun _ => (Except.ok () : Except String Unit))
          (fun _ => some [(⟨"c1", State.gain⟩ : SignedCharacter)])
          (fun _ _ => false) "nored" "m.txt" = "No (" ++ "m.txt" ++ ") " ++ rest) :=
  ⟨rfl, rfl, rfl,
    verifier_false_reports_no (fun _ => (Except.ok () : Except String Unit))
      (fun _ => some [⟨"c1", State.gain⟩]) (fun _ _ => false) "nored" "m.txt"
      [⟨"c1", State.gain⟩] rfl rfl rfl⟩

/-! Claim C6. -/

/-- C6: the per-file loop is isolation-preserving: the output is one line
per file, each depending only on that file, and a file whose read_graph
throws (parse error) prints its No line while every subsequent file is
still processed. -/
theorem multi_file_isolation :
    (∀ (readG : String → Except String Unit)
      (reduceFn : String → Option (List SignedCharacter))
      (check : String → String → Bool) (noRedMsg : String)
      (files : List String),
      processFiles readG reduceFn check noRedMsg files =
        files.map (processFile readG reduceFn check noRedMsg)) ∧
    (∀ (readG : String → Except String Unit)
      (reduceFn : String → Option (List SignedCharacter))
      (check : String → String → Bool) (noRedMsg msg f : String)
      (fs : List String),
      readG f = Except.error msg →
      processFiles readG reduceFn check noRedMsg (f :: fs) =
        noLine f msg :: processFiles readG reduceFn check noRedMsg fs) := by
  constructor
  · intro readG reduceFn check noRedMsg files
    induction files with
    | nil => rfl
    | cons f fs ih => simp [processFiles, ih]
  · intro readG reduceFn check noRedMsg msg f fs h
    simp [processFiles, processFile, h]

/-- C6 witness: a two-file run where the first file fails to parse and the
second is still processed. -/
theorem multi_file_isolation_witness :
    ((fun s : String => if s = "bad" then (Except.error "parse error" : Except String Unit)
        else Except.ok ()) "bad" = (Except.error "parse error" : Except String Unit)) ∧
    processFiles
        (fun s => if s = "bad" then (Except.error "parse error" : Except String Unit)
          else Except.ok ())
        (fun _ => some []) (fun _ _ => true) "nored" ["bad", "good"] =
      noLine "bad" "parse error" ::
        processFiles
          (fun s => if s = "bad" then (Except.error "parse error" : Except String Unit)
            else Except.ok ())
          (fun _ => some []) (fun _ _ => true) "nored" ["good"] :=
  ⟨rfl,
    multi_file_isolation.2
      (fun s => if s = "bad" then (Except.error "parse error" : Except String Unit)
        else Except.ok ())
      (fun _ => some []) (fun _ _ => true) "nored" "parse error" "bad" ["good"]
      rfl⟩

/-! Claim C7. -/

/-- C7: when both --exponential and --interactive are passed, main exits
with code 1 and the conflicting-options error before processing any input
file (the result is an early exit, not a list of per-file outputs). -/
theorem conflicting_options_exit :
    ∀ (opts : Options) (readG : String → Except String Unit)
      (reduceFn : String → Option (List SignedCharacter))
      (check : String → String → Bool) (noRedMsg : String),
      opts.exponential = true → opts.interactive = true →
      mainRun opts readG reduceFn check noRedMsg =
        MainResult.exitCode 1
          "Error: conflicting options --exponential and --interactive." ∧
      ∀ lines, mainRun opts readG reduceFn check noRedMsg ≠
        MainResult.outputs lines := by
  intro opts readG reduceFn check noRedMsg hx hi
  have h : mainRun opts readG reduceFn check noRedMsg =
      MainResult.exitCode 1
        "Error: conflicting options --exponential and --interactive." := by
    simp only [mainRun, conflicting_options, hx, hi, Bool.and_self]
    rfl
  exact ⟨h, fun lines hc => by rw [h] at hc; exact MainResult.noConfusion hc⟩

/-- C7 witness: a concrete command line passing both options together with
an input file; the run exits with code 1. -/
theorem conflicting_options_exit_witness :
    (Options.exponential ⟨false, false, true, true, ["m.txt"]⟩ = true) ∧
    (Options.interactive ⟨false, false, true, true, ["m.txt"]⟩ = true) ∧
    (mainRun ⟨false, false, true, true, ["m.txt"]⟩ (fun _ => Except.ok ())
        (fun _ => some []) (fun _ _ => true) "nored" =
      MainResult.exitCode 1
        "Error: conflicting options --exponential and --interactive." ∧
      ∀ lines, mainRun ⟨false, false, true, true, ["m.txt"]⟩
          (fun _ => Except.ok ()) (fun _ => some []) (fun _ _ => true) "nored" ≠
        MainResult.outputs lines) :=
  ⟨rfl, rfl,
    conflicting_options_exit ⟨false, false, true, true, ["m.txt"]⟩
      (fun _ => Except.ok ()) (fun _ => some []) (fun _ _ => true) "nored"
      rfl rfl⟩

/-! Claim C9. -/

/-- C9: is_included a b returns true iff every element of a occurs in b;
the empty list is included in every list, and the induced relation is
reflexive and transitive. -/
theorem is_included_spec :
    (∀ a b : List String, is_included a b = true ↔ ∀ x ∈ a, x ∈ b) ∧
    (∀ b : List String, is_included [] b = true) ∧
    (∀ a : List String, is_included a a = true) ∧
    (∀ a b c : List String, is_included a b = true → is_included b c = true →
      is_included a c = true) :=
  ⟨is_included_iff, fun _ => rfl,
    fun a => (is_included_iff a a).mpr (fun _ hx => hx),
    fun _ _ _ hab hbc => is_included_trans hab hbc⟩

/-- C9 witness: the characterization and transitivity evaluated on concrete
lists. -/
theorem is_included_spec_witness :
    (is_included ["a"] ["b", "a"] = true ↔ ∀ x ∈ ["a"], x ∈ ["b", "a"]) ∧
    (is_included ["a"] ["b", "a"] = true) ∧
    (is_included ["b", "a"] ["c", "b", "a"] = true) ∧
    (is_included ["a"] ["c", "b", "a"] = true) :=
  ⟨is_included_spec.1 ["a"] ["b", "a"], by decide, by decide,
    is_included_spec.2.2.2 ["a"] ["b", "a"] ["c", "b", "a"] (by decide)
      (by decide)⟩

/-! Claim C8. -/

theorem setLabelFirst_length (es : List HDEdgeRec) (u v : Nat)
    (scs : List SignedCharacter) :
    (setLabelFirst es u v scs).length = es.length := by
  induction es with
  | nil => rfl
  | cons e es ih =>
    simp only [setLabelFirst]
    split <;> simp [ih]

theorem hasEdgeB_cons (e : HDEdgeRec) (es : List HDEdgeRec) (u v : Nat) :
    hasEdgeB (e :: es) u v = ((e.src == u && e.tgt == v) || hasEdgeB es u v) := by
  simp [hasEdgeB, List.any_cons]

theorem setLabelFirst_find (es : List HDEdgeRec) (u v : Nat)
    (scs : List SignedCharacter) (h : hasEdgeB es u v = true) :
    (setLabelFirst es u v scs).find? (fun e => e.src == u && e.tgt == v) =
      some ⟨u, v, scs⟩ := by
  induction es with
  | nil => simp [hasEdgeB] at h
  | cons e es ih =>
    simp only [setLabelFirst]
    by_cases hc : (e.src == u && e.tgt == v) = true
    · rw [if_pos hc]
      obtain ⟨h1, h2⟩ : e.src = u ∧ e.tgt = v := by simpa using hc
      simp [List.find?_cons, h1, h2]
    · rw [if_neg hc]
      have h' : hasEdgeB es u v = true := by
        rw [hasEdgeB_cons] at h
        rcases (Bool.or_eq_true _ _).mp h with h | h
        · exact absurd h hc
        · exact h
      rw [List.find?_cons_of_neg _ (by simpa using hc)]
      exact ih h'

theorem setLabelFirst_append_new (es : List HDEdgeRec) (u v : Nat)
    (scs : List SignedCharacter) (h : hasEdgeB es u v = false) :
    setLabelFirst (es ++ [⟨u, v, []⟩]) u v scs = es ++ [⟨u, v, scs⟩] := by
  induction es with
  | nil => simp [setLabelFirst]
  | cons e es ih =>
    rw [hasEdgeB_cons, Bool.or_eq_false_iff] at h
    rw [List.cons_append, List.cons_append]
    show (if (e.src == u && e.tgt == v) = true then _ else _) = _
    rw [if_neg (by simp [h.1] : ¬(e.src == u && e.tgt == v) = true)]
    rw [ih h.2]

theorem find?_append_new (es : List HDEdgeRec) (u v : Nat)
    (scs : List SignedCharacter) (h : hasEdgeB es u v = false) :
    (es ++ [(⟨u, v, scs⟩ : HDEdgeRec)]).find?
        (fun e => e.src == u && e.tgt == v) = some ⟨u, v, scs⟩ := by
  induction es with
  | nil => simp
  | cons e es ih =>
    rw [hasEdgeB_cons, Bool.or_eq_false_iff] at h
    rw [List.cons_append, List.find?_cons_of_neg _ (by simpa using h.1)]
    exact ih h.2

theorem setLabelFirst_countP (es : List HDEdgeRec) (u v : Nat)
    (scs : List SignedCharacter) :
    (setLabelFirst es u v scs).countP (fun e => e.src == u && e.tgt == v) =
      es.countP (fun e => e.src == u && e.tgt == v) := by
  induction es with
  | nil => rfl
  | cons e es ih =>
    simp only [setLabelFirst]
    by_cases hc : (e.src == u && e.tgt == v) = true
    · rw [if_pos hc]
      obtain ⟨h1, h2⟩ : e.src = u ∧ e.tgt = v := by simpa using hc
      simp [List.countP_cons, hc, h1, h2]
    · rw [if_neg hc]
      simp only [List.countP_cons, ih]

theorem countP_zero_of_no_edge (es : List HDEdgeRec) (u v : Nat)
    (h : hasEdgeB es u v = false) :
    es.countP (fun e => e.src == u && e.tgt == v) = 0 := by
  rw [List.countP_eq_zero]
  intro e he hc
  have : hasEdgeB es u v = true := by
    rw [hasEdgeB, List.any_eq_true]
    exact ⟨e, he, hc⟩
  rw [h] at this
  exact Bool.false_ne_true this

/-- C8: the four-argument add_edge never creates a second edge with the
same source and target (for a setS adjacency list boost::add_edge returns
the existing edge with flag false), and in every case it overwrites the
stored signed-character list of the (u, v) edge with the given list. -/
theorem add_edge_no_duplicate :
    ∀ (u v : Nat) (scs : List SignedCharacter) (h : HDGraph),
      ((add_edge u v scs h).2.1 = !(hasEdgeB h.edges u v)) ∧
      (hasEdgeB h.edges u v = true →
        ((add_edge u v scs h).2.2).edges.length = h.edges.length) ∧
      (h.edges.countP (fun e => e.src == u && e.tgt == v) ≤ 1 →
        ((add_edge u v scs h).2.2).edges.countP
          (fun e => e.src == u && e.tgt == v) ≤ 1) ∧
      (((add_edge u v scs h).2.2).edges.find?
          (fun e => e.src == u && e.tgt == v)).map
        (fun e => e.signedcharacters) = some scs := by
  intro u v scs h
  by_cases he : hasEdgeB h.edges u v = true
  · refine ⟨?_, fun _ => ?_, fun hle => ?_, ?_⟩
    · simp [add_edge, addEdgeRaw, he]
    · simp [add_edge, addEdgeRaw, he, setLabelFirst_length]
    · simpa [add_edge, addEdgeRaw, he, setLabelFirst_countP] using hle
    · simp [add_edge, addEdgeRaw, he, setLabelFirst_find h.edges u v scs he]
  · have he' : hasEdgeB h.edges u v = false := Bool.eq_false_iff.mpr he
    refine ⟨?_, fun hc => absurd hc he, fun _ => ?_, ?_⟩
    · simp [add_edge, addEdgeRaw, he']
    · simp only [add_edge, addEdgeRaw, he', Bool.false_eq_true, if_neg,
        ite_false, setLabelFirst_append_new h.edges u v scs he',
        List.countP_append, countP_zero_of_no_edge h.edges u v he']
      simp [List.countP_cons]
    · simp only [add_edge, addEdgeRaw, he', Bool.false_eq_true, ite_false,
        setLabelFirst_append_new h.edges u v scs he',
        find?_append_new h.edges u v scs he']
      rfl

/-- C8 witness: adding an edge that already exists returns flag false and
overwrites the label. -/
theorem add_edge_no_duplicate_witness :
    (hasEdgeB [(⟨0, 1, [⟨"a", State.gain⟩]⟩ : HDEdgeRec)] 0 1 = true) ∧
    ((HDEdgeRec.mk 0 1 [⟨"a", State.gain⟩] :: []).countP
        (fun e => e.src == 0 && e.tgt == 1) ≤ 1) ∧
    (((add_edge 0 1 [⟨"b", State.lose⟩]
        ⟨[], [⟨0, 1, [⟨"a", State.gain⟩]⟩], 0⟩).2.1 =
      !(hasEdgeB [(⟨0, 1, [⟨"a", State.gain⟩]⟩ : HDEdgeRec)] 0 1)) ∧
      (hasEdgeB [(⟨0, 1, [⟨"a", State.gain⟩]⟩ : HDEdgeRec)] 0 1 = true →
        ((add_edge 0 1 [⟨"b", State.lose⟩]
            ⟨[], [⟨0, 1, [⟨"a", State.gain⟩]⟩], 0⟩).2.2).edges.length =
          [(⟨0, 1, [⟨"a", State.gain⟩]⟩ : HDEdgeRec)].length) ∧
      ([(⟨0, 1, [⟨"a", State.gain⟩]⟩ : HDEdgeRec)].countP
          (fun e => e.src == 0 && e.tgt == 1) ≤ 1 →
        ((add_edge 0 1 [⟨"b", State.lose⟩]
            ⟨[], [⟨0, 1, [⟨"a", State.gain⟩]⟩], 0⟩).2.2).edges.countP
          (fun e => e.src == 0 && e.tgt == 1) ≤ 1) ∧
      (((add_edge 0 1 [⟨"b", State.lose⟩]
            ⟨[], [⟨0, 1, [⟨"a", State.gain⟩]⟩], 0⟩).2.2).edges.find?
          (fun e => e.src == 0 && e.tgt == 1)).map
        (fun e => e.signedcharacters) = some [⟨"b", State.lose⟩]) :=
  ⟨by decide, by decide,
    add_edge_no_duplicate 0 1 [⟨"b", State.lose⟩]
      ⟨[], [⟨0, 1, [⟨"a", State.gain⟩]⟩], 0⟩⟩

/-! Claim C10. -/

/-- C10: num_vertices returns the graph-bundle num_v field; add_vertex
never changes that field, so num_vertices is invariant under any sequence
of add_vertex calls and can differ from the true vertex count. -/
theorem num_vertices_ignores_add_vertex :
    (∀ h : HDGraph, num_vertices h = h.num_v) ∧
    (∀ (sp ch : List String) (h : HDGraph),
      num_vertices (add_vertex sp ch h).2 = num_vertices h) ∧
    (∀ (h : HDGraph) (l : List (List String × List String)),
      num_vertices (l.foldl (fun g p => (add_vertex p.1 p.2 g).2) h) =
        num_vertices h) ∧
    (∃ h : HDGraph, num_vertices h ≠ h.verts.length) := by
  refine ⟨fun _ => rfl, fun _ _ _ => rfl, fun h l => ?_,
    ⟨(add_vertex ["s"] ["c"] ⟨[], [], 0⟩).2, by decide⟩⟩
  induction l generalizing h with
  | nil => rfl
  | cons p rest ih => exact ih (add_vertex p.1 p.2 h).2

end PPP

namespace PPP

/-! Support lemmas for the hasse_diagram build loop. -/

theorem charsOf_cons_zero (v : HDVertexProps) (vs : List HDVertexProps) :
    charsOf (v :: vs) 0 = v.characters := rfl

theorem charsOf_cons_succ (v : HDVertexProps) (vs : List HDVertexProps) (i : Nat) :
    charsOf (v :: vs) (i + 1) = charsOf vs i := by
  simp [charsOf, List.getD_cons_succ]

theorem speciesOf_cons_zero (v : HDVertexProps) (vs : List HDVertexProps) :
    speciesOf (v :: vs) 0 = v.species := rfl

theorem speciesOf_cons_succ (v : HDVertexProps) (vs : List HDVertexProps) (i : Nat) :
    speciesOf (v :: vs) (i + 1) = speciesOf vs i := by
  simp [speciesOf, List.getD_cons_succ]

theorem charsOf_append_lt (verts : List HDVertexProps) (w : HDVertexProps)
    (j : Nat) (h : j < verts.length) :
    charsOf (verts ++ [w]) j = charsOf verts j := by
  induction verts generalizing j with
  | nil => exact absurd h (Nat.not_lt_zero j)
  | cons v vs ih =>
    cases j with
    | zero => rfl
    | succ j =>
      rw [List.cons_append, charsOf_cons_succ, charsOf_cons_succ]
      exact ih j (Nat.lt_of_succ_lt_succ h)

theorem charsOf_append_self (verts : List HDVertexProps) (w : HDVertexProps) :
    charsOf (verts ++ [w]) verts.length = w.characters := by
  induction verts with
  | nil => rfl
  | cons v vs ih =>
    rw [List.cons_append, List.length_cons, charsOf_cons_succ]
    exact ih

theorem speciesOf_append_lt (verts : List HDVertexProps) (w : HDVertexProps)
    (j : Nat) (h : j < verts.length) :
    speciesOf (verts ++ [w]) j = speciesOf verts j := by
  induction verts generalizing j with
  | nil => exact absurd h (Nat.not_lt_zero j)
  | cons v vs ih =>
    cases j with
    | zero => rfl
    | succ j =>
      rw [List.cons_append, speciesOf_cons_succ, speciesOf_cons_succ]
      exact ih j (Nat.lt_of_succ_lt_succ h)

theorem speciesOf_append_self (verts : List HDVertexProps) (w : HDVertexProps) :
    speciesOf (verts ++ [w]) verts.length = w.species := by
  induction verts with
  | nil => rfl
  | cons v vs ih =>
    rw [List.cons_append, List.length_cons, speciesOf_cons_succ]
    exact ih

theorem appendSpeciesAt_length (verts : List HDVertexProps) (i : Nat) (nm : String) :
    (appendSpeciesAt verts i nm).length = verts.length := by
  induction verts generalizing i with
  | nil => rfl
  | cons v vs ih =>
    cases i with
    | zero => rfl
    | succ i => simp [appendSpeciesAt, ih]

theorem charsOf_appendSpeciesAt (verts : List HDVertexProps) (i j : Nat)
    (nm : String) :
    charsOf (appendSpeciesAt verts i nm) j = charsOf verts j := by
  induction verts generalizing i j with
  | nil => cases i <;> rfl
  | cons v vs ih =>
    cases i with
    | zero =>
      cases j with
      | zero => rfl
      | succ j => simp [appendSpeciesAt, charsOf_cons_succ]
    | succ i =>
      cases j with
      | zero => rfl
      | succ j =>
        show charsOf (v :: appendSpeciesAt vs i nm) (j + 1) = _
        rw [charsOf_cons_succ, charsOf_cons_succ]
        exact ih i j

theorem speciesOf_appendSpeciesAt_self (verts : List HDVertexProps) (i : Nat)
    (nm : String) (h : i < verts.length) :
    speciesOf (appendSpeciesAt verts i nm) i = speciesOf verts i ++ [nm] := by
  induction verts generalizing i with
  | nil => exact absurd h (Nat.not_lt_zero i)
  | cons v vs ih =>
    cases i with
    | zero => rfl
    | succ i =>
      show speciesOf (v :: appendSpeciesAt vs i nm) (i + 1) = _
      rw [speciesOf_cons_succ, speciesOf_cons_succ]
      exact ih i (Nat.lt_of_succ_lt_succ h)

theorem speciesOf_appendSpeciesAt_mono (verts : List HDVertexProps) (i j : Nat)
    (nm s : String) (h : s ∈ speciesOf verts j) :
    s ∈ speciesOf (appendSpeciesAt verts i nm) j := by
  induction verts generalizing i j with
  | nil => cases i <;> exact h
  | cons v vs ih =>
    cases i with
    | zero =>
      cases j with
      | zero =>
        show s ∈ v.species ++ [nm]
        exact List.mem_append_left _ h
      | succ j =>
        show s ∈ speciesOf ({ v with species := v.species ++ [nm] } :: vs) (j + 1)
        rw [speciesOf_cons_succ]
        exact h
    | succ i =>
      cases j with
      | zero => exact h
      | succ j =>
        show s ∈ speciesOf (v :: appendSpeciesAt vs i nm) (j + 1)
        rw [speciesOf_cons_succ]
        exact ih i j (by rw [speciesOf_cons_succ] at h; exact h)

theorem findEqChars_some (verts : List HDVertexProps) (lcv : List String)
    (i : Nat) (h : findEqChars verts lcv = some i) :
    i < verts.length ∧ charsOf verts i = lcv := by
  induction verts generalizing i with
  | nil => exact absurd h (by simp [findEqChars])
  | cons v vs ih =>
    simp only [findEqChars] at h
    by_cases hv : (v.characters == lcv) = true
    · rw [if_pos hv] at h
      obtain rfl : i = 0 := by injection h with h; exact h.symm
      exact ⟨Nat.succ_pos _, eq_of_beq hv⟩
    · rw [if_neg hv] at h
      cases hfe : findEqChars vs lcv with
      | none => rw [hfe] at h; exact absurd h (by simp)
      | some k =>
        rw [hfe] at h
        obtain rfl : i = k + 1 := by injection h with h; exact h.symm
        obtain ⟨hk, hc⟩ := ih k hfe
        exact ⟨Nat.succ_lt_succ hk, by rw [charsOf_cons_succ]; exact hc⟩

theorem findEqChars_none (verts : List HDVertexProps) (lcv : List String)
    (h : findEqChars verts lcv = none) :
    ∀ i, i < verts.length → charsOf verts i ≠ lcv := by
  induction verts with
  | nil => intro i hi; exact absurd hi (Nat.not_lt_zero i)
  | cons v vs ih =>
    simp only [findEqChars] at h
    by_cases hv : (v.characters == lcv) = true
    · rw [if_pos hv] at h; exact absurd h (by simp)
    · rw [if_neg hv] at h
      intro i hi
      cases i with
      | zero =>
        intro hc
        exact hv (beq_iff_eq.mpr hc)
      | succ i =>
        rw [charsOf_cons_succ]
        cases hfe : findEqChars vs lcv with
        | none => exact ih hfe i (Nat.lt_of_succ_lt_succ hi)
        | some k => rw [hfe] at h; exact absurd h (by simp)

end PPP

namespace PPP

/-! Characterization of the new_edges attachment. -/

theorem beq_pair_iff (e : HDEdgeRec) (i u : Nat) :
    (e.src == i && e.tgt == u) = true ↔ e.src = i ∧ e.tgt = u := by
  simp

theorem findAttach_no_match (es : List HDEdgeRec) (i u : Nat) (c : String)
    (h : ∀ e ∈ es, ¬(e.src = i ∧ e.tgt = u)) :
    findAttach es i u c = es ++ [⟨i, u, [⟨c, State.gain⟩]⟩] := by
  induction es with
  | nil => rfl
  | cons e es ih =>
    have he : ¬((e.src == i && e.tgt == u) = true) := fun hc =>
      h e (List.mem_cons_self e es) ((beq_pair_iff e i u).mp hc)
    simp only [findAttach, if_neg he]
    rw [ih (fun e' he' => h e' (List.mem_cons_of_mem e he')), List.cons_append]

theorem findAttach_append_match (es : List HDEdgeRec) (i u : Nat) (c : String)
    (acc : List SignedCharacter)
    (h : ∀ e ∈ es, ¬(e.src = i ∧ e.tgt = u)) :
    findAttach (es ++ [⟨i, u, acc⟩]) i u c =
      es ++ [⟨i, u, acc ++ [⟨c, State.gain⟩]⟩] := by
  induction es with
  | nil => simp [findAttach]
  | cons e es ih =>
    have he : ¬((e.src == i && e.tgt == u) = true) := fun hc =>
      h e (List.mem_cons_self e es) ((beq_pair_iff e i u).mp hc)
    rw [List.cons_append]
    simp only [findAttach, if_neg he]
    rw [ih (fun e' he' => h e' (List.mem_cons_of_mem e he')), List.cons_append]

theorem attachPairs_nil (es : List HDEdgeRec) (u : Nat) :
    attachPairs es u [] = es := rfl

theorem attachPairs_append (es : List HDEdgeRec) (u : Nat)
    (a b : List (Nat × String)) :
    attachPairs es u (a ++ b) = attachPairs (attachPairs es u a) u b :=
  List.foldl_append _ _ a b

theorem attach_group (i u : Nat) (cs : List String) :
    ∀ (acc : List SignedCharacter) (es : List HDEdgeRec),
      (∀ e ∈ es, ¬(e.src = i ∧ e.tgt = u)) →
      attachPairs (es ++ [⟨i, u, acc⟩]) u (cs.map (fun c => (i, c))) =
        es ++ [⟨i, u, acc ++ cs.map (fun c => ⟨c, State.gain⟩)⟩] := by
  induction cs with
  | nil => intro acc es _; simp [attachPairs]
  | cons c cs ih =>
    intro acc es h
    show attachPairs (findAttach (es ++ [⟨i, u, acc⟩]) i u c) u
        (cs.map (fun c => (i, c))) = _
    rw [findAttach_append_match es i u c acc h]
    have h2 := ih (acc ++ [(⟨c, State.gain⟩ : SignedCharacter)]) es h
    rw [h2]
    simp only [List.append_assoc]
    rfl

theorem attach_group_new (i u : Nat) (cs : List String) (es : List HDEdgeRec)
    (h : ∀ e ∈ es, ¬(e.src = i ∧ e.tgt = u)) (hne : cs ≠ []) :
    attachPairs es u (cs.map (fun c => (i, c))) =
      es ++ [⟨i, u, cs.map (fun c => ⟨c, State.gain⟩)⟩] := by
  cases cs with
  | nil => exact absurd rfl hne
  | cons c cs =>
    show attachPairs (findAttach es i u c) u (cs.map (fun c => (i, c))) = _
    rw [findAttach_no_match es i u c h, attach_group i u cs [⟨c, State.gain⟩] es h]
    rfl

theorem attach_flatMap (u : Nat) (b : Nat → Bool) (f : Nat → List String) :
    ∀ (idxs : List Nat) (es : List HDEdgeRec), idxs.Nodup →
      (∀ j ∈ idxs, ∀ e ∈ es, ¬(e.src = j ∧ e.tgt = u)) →
      attachPairs es u
          (idxs.flatMap fun i =>
            if b i then (f i).map (fun c => (i, c)) else []) =
        es ++ idxs.filterMap (fun i =>
          if b i && !(f i).isEmpty then
            some ⟨i, u, (f i).map (fun c => ⟨c, State.gain⟩)⟩
          else none) := by
  intro idxs
  induction idxs with
  | nil => intro es _ _; simp [attachPairs]
  | cons j rest ih =>
    intro es hnd hfree
    rw [List.flatMap_cons, attachPairs_append]
    by_cases hb : b j = true
    · by_cases hf : (f j).isEmpty = true
      · have hfnil : f j = [] := List.isEmpty_iff.mp hf
        rw [show (if b j = true then (f j).map (fun c => (j, c)) else []) = []
          from by rw [if_pos hb, hfnil]; rfl]
        rw [attachPairs_nil]
        rw [ih es (List.Nodup.of_cons hnd)
          (fun j' hj' => hfree j' (List.mem_cons_of_mem j hj'))]
        rw [List.filterMap_cons]
        rw [show (if (b j && !(f j).isEmpty) = true then
            some (⟨j, u, (f j).map (fun c => ⟨c, State.gain⟩)⟩ : HDEdgeRec)
          else none) = none from by rw [hb, hf]; rfl]
      · have hfne : f j ≠ [] := by
          intro hc
          exact hf (List.isEmpty_iff.mpr hc)
        have hf' : (f j).isEmpty = false := Bool.eq_false_iff.mpr hf
        rw [if_pos hb,
          attach_group_new j u (f j) es (hfree j (List.mem_cons_self j rest)) hfne]
        have hfree' : ∀ j' ∈ rest, ∀ e ∈
            es ++ [(⟨j, u, (f j).map (fun c => ⟨c, State.gain⟩)⟩ : HDEdgeRec)],
            ¬(e.src = j' ∧ e.tgt = u) := by
          intro j' hj' e he
          rcases List.mem_append.mp he with he | he
          · exact hfree j' (List.mem_cons_of_mem j hj') e he
          · rcases List.mem_singleton.mp he with rfl
            intro hc
            have : j ≠ j' := fun hjj =>
              (List.nodup_cons.mp hnd).1 (hjj ▸ hj')
            exact this hc.1
        rw [ih _ (List.Nodup.of_cons hnd) hfree']
        rw [List.filterMap_cons]
        rw [show (if (b j && !(f j).isEmpty) = true then
            some (⟨j, u, (f j).map (fun c => ⟨c, State.gain⟩)⟩ : HDEdgeRec)
          else none) =
            some (⟨j, u, (f j).map (fun c => ⟨c, State.gain⟩)⟩ : HDEdgeRec)
          from by rw [hb, hf']; rfl]
        rw [List.append_assoc]
        rfl
    · have hb' : b j = false := Bool.eq_false_iff.mpr hb
      rw [show (if b j = true then (f j).map (fun c => (j, c)) else []) = []
        from by rw [hb']; rfl]
      rw [attachPairs_nil]
      rw [ih es (List.Nodup.of_cons hnd)
        (fun j' hj' => hfree j' (List.mem_cons_of_mem j hj'))]
      rw [List.filterMap_cons]
      rw [show (if (b j && !(f j).isEmpty) = true then
          some (⟨j, u, (f j).map (fun c => ⟨c, State.gain⟩)⟩ : HDEdgeRec)
        else none) = none from by rw [hb']; rfl]

theorem buildStep_none (g : HDGraph) (s : String × List String)
    (hfind : findEqChars g.verts s.2 = none)
    (htgt : ∀ e ∈ g.edges, e.tgt < g.verts.length) :
    (buildStep g s).verts = g.verts ++ [⟨[s.1], s.2⟩] ∧
    (buildStep g s).edges =
      g.edges ++ edgesFor g.verts s.2 g.verts.length ∧
    (buildStep g s).num_v = g.num_v := by
  have hfree : ∀ j ∈ List.range g.verts.length, ∀ e ∈ g.edges,
      ¬(e.src = j ∧ e.tgt = g.verts.length) := by
    intro j _ e he hc
    exact absurd (hc.2 ▸ htgt e he) (Nat.lt_irrefl _)
  constructor
  · simp only [buildStep, hfind]
    rfl
  constructor
  · simp only [buildStep, hfind]
    show attachPairs g.edges g.verts.length (pairsFor g.verts s.2) = _
    rw [pairsFor,
      attach_flatMap g.verts.length
        (fun i => is_included (charsOf g.verts i) s.2)
        (fun i => s.2.filter (fun c => !((charsOf g.verts i).contains c)))
        (List.range g.verts.length) g.edges (List.nodup_range _) hfree]
    rfl
  · simp only [buildStep, hfind]
    rfl

theorem buildStep_some (g : HDGraph) (s : String × List String) (i : Nat)
    (hfind : findEqChars g.verts s.2 = some i) :
    (buildStep g s).verts = appendSpeciesAt g.verts i s.1 ∧
    (buildStep g s).edges = g.edges ∧
    (buildStep g s).num_v = g.num_v := by
  refine ⟨?_, ?_, ?_⟩ <;> simp only [buildStep, hfind]

end PPP

namespace PPP

/-! Invariants of the build loop. -/

/-- Invariant of the diagram under construction: every edge goes from an
earlier vertex to a later one; its endpoints' character lists satisfy
set inclusion with at least one missing character, and the label is exactly
the missing characters of the target in target order tagged gain
(soundness); conversely every index pair in that relation has an edge
(completeness); and no two vertices carry list-equal character lists. -/
structure BuildInv (g : HDGraph) : Prop where
  src_lt : ∀ e ∈ g.edges, e.src < e.tgt
  tgt_lt : ∀ e ∈ g.edges, e.tgt < g.verts.length
  label_sound : ∀ e ∈ g.edges,
    is_included (charsOf g.verts e.src) (charsOf g.verts e.tgt) = true ∧
    (charsOf g.verts e.tgt).filter
      (fun c => !((charsOf g.verts e.src).contains c)) ≠ [] ∧
    e.signedcharacters = gainLabel (charsOf g.verts e.src) (charsOf g.verts e.tgt)
  complete : ∀ i j : Nat, i < j → j < g.verts.length →
    is_included (charsOf g.verts i) (charsOf g.verts j) = true →
    (charsOf g.verts j).filter (fun c => !((charsOf g.verts i).contains c)) ≠ [] →
    hasEdge g.edges i j
  distinct : ∀ i j : Nat, i < j → j < g.verts.length →
    charsOf g.verts i ≠ charsOf g.verts j

theorem mem_edgesFor (verts : List HDVertexProps) (lcv : List String) (u : Nat)
    (e : HDEdgeRec) :
    e ∈ edgesFor verts lcv u ↔
      ∃ i, i < verts.length ∧ is_included (charsOf verts i) lcv = true ∧
        (lcv.filter (fun c => !((charsOf verts i).contains c))) ≠ [] ∧
        e = ⟨i, u, gainLabel (charsOf verts i) lcv⟩ := by
  rw [edgesFor, List.mem_filterMap]
  constructor
  · rintro ⟨i, hi, hsome⟩
    rw [List.mem_range] at hi
    by_cases hc : (is_included (charsOf verts i) lcv &&
        !((lcv.filter (fun c => !((charsOf verts i).contains c))).isEmpty)) = true
    · rw [if_pos hc] at hsome
      obtain ⟨h1, h2⟩ := (Bool.and_eq_true _ _).mp hc
      refine ⟨i, hi, h1, ?_, (Option.some.inj hsome).symm⟩
      intro hnil
      rw [hnil] at h2
      exact absurd h2 (by simp)
    · rw [if_neg hc] at hsome
      exact absurd hsome (by simp)
  · rintro ⟨i, hi, h1, h2, rfl⟩
    refine ⟨i, List.mem_range.mpr hi, ?_⟩
    have hcond : (is_included (charsOf verts i) lcv &&
        !((lcv.filter (fun c => !((charsOf verts i).contains c))).isEmpty)) = true := by
      rw [h1, List.isEmpty_eq_false.mpr h2]
      rfl
    rw [if_pos hcond]

theorem BuildInv.transfer (g g' : HDGraph) (hI : BuildInv g)
    (he : g'.edges = g.edges) (hl : g'.verts.length = g.verts.length)
    (hc : ∀ k, charsOf g'.verts k = charsOf g.verts k) : BuildInv g' := by
  constructor
  · rw [he]; exact hI.src_lt
  · rw [he, hl]; exact hI.tgt_lt
  · rw [he]
    intro e heA
    rw [hc, hc]
    exact hI.label_sound e heA
  · intro i j hij hj
    rw [hl] at hj
    rw [hc, hc, he]
    exact hI.complete i j hij hj
  · intro i j hij hj
    rw [hl] at hj
    rw [hc, hc]
    exact hI.distinct i j hij hj

theorem buildStep_inv (g : HDGraph) (s : String × List String)
    (hI : BuildInv g) : BuildInv (buildStep g s) := by
  cases hfind : findEqChars g.verts s.2 with
  | some i =>
    obtain ⟨hv, he, _⟩ := buildStep_some g s i hfind
    refine BuildInv.transfer g (buildStep g s) hI he ?_ ?_
    · rw [hv, appendSpeciesAt_length]
    · intro k
      rw [hv, charsOf_appendSpeciesAt]
  | none =>
    obtain ⟨hv, he, _⟩ := buildStep_none g s hfind hI.tgt_lt
    have hlen : (buildStep g s).verts.length = g.verts.length + 1 := by
      rw [hv, List.length_append]
      rfl
    have hclt : ∀ k, k < g.verts.length →
        charsOf (buildStep g s).verts k = charsOf g.verts k := by
      intro k hk
      rw [hv]
      exact charsOf_append_lt g.verts _ k hk
    have hcself : charsOf (buildStep g s).verts g.verts.length = s.2 := by
      rw [hv]
      exact charsOf_append_self g.verts _
    constructor
    · intro e heA
      rw [he] at heA
      rcases List.mem_append.mp heA with h | h
      · exact hI.src_lt e h
      · obtain ⟨i, hi, _, _, rfl⟩ := (mem_edgesFor _ _ _ _).mp h
        exact hi
    · intro e heA
      rw [hlen, he] at *
      rcases List.mem_append.mp heA with h | h
      · exact Nat.lt_succ_of_lt (hI.tgt_lt e h)
      · obtain ⟨i, hi, _, _, rfl⟩ := (mem_edgesFor _ _ _ _).mp h
        exact Nat.lt_succ_self _
    · intro e heA
      rw [he] at heA
      rcases List.mem_append.mp heA with h | h
      · have hst := hI.src_lt e h
        have htl := hI.tgt_lt e h
        rw [hclt e.src (Nat.lt_trans hst htl), hclt e.tgt htl]
        exact hI.label_sound e h
      · obtain ⟨i, hi, h1, h2, rfl⟩ := (mem_edgesFor _ _ _ _).mp h
        show is_included (charsOf (buildStep g s).verts i)
            (charsOf (buildStep g s).verts g.verts.length) = true ∧ _
        rw [hclt i hi, hcself]
        exact ⟨h1, h2, rfl⟩
    · intro i j hij hj hinc hfil
      rw [hlen] at hj
      rcases Nat.lt_succ_iff_lt_or_eq.mp hj with hj | rfl
      · rw [hclt i (Nat.lt_trans hij hj), hclt j hj] at hinc hfil
        obtain ⟨e, hmem, hsrc, htgt⟩ := hI.complete i j hij hj hinc hfil
        exact ⟨e, by rw [he]; exact List.mem_append_left _ hmem, hsrc, htgt⟩
      · rw [hclt i hij, hcself] at hinc hfil
        refine ⟨⟨i, g.verts.length, gainLabel (charsOf g.verts i) s.2⟩, ?_, rfl, rfl⟩
        rw [he]
        refine List.mem_append_right _ ?_
        rw [mem_edgesFor]
        exact ⟨i, hij, hinc, hfil, rfl⟩
    · intro i j hij hj
      rw [hlen] at hj
      rcases Nat.lt_succ_iff_lt_or_eq.mp hj with hj | rfl
      · rw [hclt i (Nat.lt_trans hij hj), hclt j hj]
        exact hI.distinct i j hij hj
      · rw [hclt i hij, hcself]
        exact findEqChars_none g.verts s.2 hfind i hij

theorem buildInv_foldl (l : List (String × List String)) :
    ∀ g : HDGraph, BuildInv g → BuildInv (l.foldl buildStep g) := by
  induction l with
  | nil => intro g hI; exact hI
  | cons s rest ih => intro g hI; exact ih (buildStep g s) (buildStep_inv g s hI)

theorem buildInv_empty : BuildInv ⟨[], [], 0⟩ := by
  constructor
  · intro e he; exact absurd he (List.not_mem_nil e)
  · intro e he; exact absurd he (List.not_mem_nil e)
  · intro e he; exact absurd he (List.not_mem_nil e)
  · intro i j _ hj _ _; exact absurd hj (Nat.not_lt_zero j)
  · intro i j _ hj; exact absurd hj (Nat.not_lt_zero j)

theorem buildDiagram_inv (g : List (String × List String)) :
    BuildInv (buildDiagram g) :=
  buildInv_foldl _ _ buildInv_empty

end PPP

namespace PPP

/-! Species membership through the build loop. -/

/-- Every processed species name is recorded in some vertex whose character
list equals the species' character list. -/
def SpeciesInv (g : HDGraph) (processed : List (String × List String)) : Prop :=
  ∀ p ∈ processed, ∃ i, i < g.verts.length ∧ charsOf g.verts i = p.2 ∧
    p.1 ∈ speciesOf g.verts i

theorem buildStep_speciesInv (g : HDGraph) (s : String × List String)
    (acc : List (String × List String)) (hS : SpeciesInv g acc) :
    SpeciesInv (buildStep g s) (acc ++ [s]) := by
  cases hfind : findEqChars g.verts s.2 with
  | some i =>
    obtain ⟨hv, _, _⟩ := buildStep_some g s i hfind
    obtain ⟨hilen, hichars⟩ := findEqChars_some g.verts s.2 i hfind
    intro p hp
    rcases List.mem_append.mp hp with hp | hp
    · obtain ⟨k, hk, hkc, hks⟩ := hS p hp
      refine ⟨k, ?_, ?_, ?_⟩
      · rw [hv, appendSpeciesAt_length]; exact hk
      · rw [hv, charsOf_appendSpeciesAt]; exact hkc
      · rw [hv]; exact speciesOf_appendSpeciesAt_mono g.verts i k s.1 p.1 hks
    · have hps : p = s := List.mem_singleton.mp hp
      rw [hps]
      refine ⟨i, ?_, ?_, ?_⟩
      · rw [hv, appendSpeciesAt_length]; exact hilen
      · rw [hv, charsOf_appendSpeciesAt]; exact hichars
      · rw [hv, speciesOf_appendSpeciesAt_self g.verts i s.1 hilen]
        exact List.mem_append_right _ (List.mem_singleton.mpr rfl)
  | none =>
    have hv : (buildStep g s).verts = g.verts ++ [⟨[s.1], s.2⟩] := by
      simp only [buildStep, hfind]
      rfl
    intro p hp
    rcases List.mem_append.mp hp with hp | hp
    · obtain ⟨k, hk, hkc, hks⟩ := hS p hp
      refine ⟨k, ?_, ?_, ?_⟩
      · rw [hv, List.length_append]
        exact Nat.lt_succ_of_lt hk
      · rw [hv, charsOf_append_lt g.verts _ k hk]; exact hkc
      · rw [hv, speciesOf_append_lt g.verts _ k hk]; exact hks
    · have hps : p = s := List.mem_singleton.mp hp
      rw [hps]
      refine ⟨g.verts.length, ?_, ?_, ?_⟩
      · rw [hv, List.length_append]
        exact Nat.lt_succ_self _
      · rw [hv, charsOf_append_self g.verts _]
      · rw [hv, speciesOf_append_self g.verts _]
        exact List.mem_singleton.mpr rfl

theorem speciesInv_foldl (l : List (String × List String)) :
    ∀ (g : HDGraph) (acc : List (String × List String)),
      SpeciesInv g acc → SpeciesInv (l.foldl buildStep g) (acc ++ l) := by
  induction l with
  | nil => intro g acc hS; rw [List.append_nil]; exact hS
  | cons s rest ih =>
    intro g acc hS
    have h1 := ih (buildStep g s) (acc ++ [s]) (buildStep_speciesInv g s acc hS)
    rw [List.append_assoc] at h1
    exact h1

theorem buildDiagram_species (g : List (String × List String)) :
    SpeciesInv (buildDiagram g) (List.insertionSort sizeLE g) := by
  have h := speciesInv_foldl (List.insertionSort sizeLE g) ⟨[], [], 0⟩ []
    (fun p hp => absurd hp (List.not_mem_nil p))
  rw [List.nil_append] at h
  exact h

end PPP

namespace PPP

/-! The transitive-reduction pass. -/

theorem hasEdgeB_iff (es : List HDEdgeRec) (p q : Nat) :
    hasEdgeB es p q = true ↔ hasEdge es p q := by
  simp [hasEdgeB, hasEdge, List.any_eq_true]

theorem hasEdgeB_false_of_no_tgt (es : List HDEdgeRec) (u : Nat)
    (h : es.filter (fun e => e.tgt == u) = []) (p : Nat) :
    hasEdgeB es p u = false := by
  by_contra hc
  obtain ⟨e, he, hsrc, htgt⟩ := (hasEdgeB_iff es p u).mp (Bool.of_not_eq_false hc)
  have : e ∈ es.filter (fun e => e.tgt == u) :=
    List.mem_filter.mpr ⟨he, by rw [htgt]; exact beq_self_eq_true u⟩
  rw [h] at this
  exact List.not_mem_nil e this

theorem hasEdgeB_false_of_no_src (es : List HDEdgeRec) (u : Nat)
    (h : es.filter (fun e => e.src == u) = []) (q : Nat) :
    hasEdgeB es u q = false := by
  by_contra hc
  obtain ⟨e, he, hsrc, htgt⟩ := (hasEdgeB_iff es u q).mp (Bool.of_not_eq_false hc)
  have : e ∈ es.filter (fun e => e.src == u) :=
    List.mem_filter.mpr ⟨he, by rw [hsrc]; exact beq_self_eq_true u⟩
  rw [h] at this
  exact List.not_mem_nil e this

theorem pruneStep_eq_filter (es : List HDEdgeRec) (u : Nat) :
    pruneStep es u =
      es.filter (fun e => !(hasEdgeB es e.src u && hasEdgeB es u e.tgt)) := by
  rw [pruneStep]
  split
  case isTrue h =>
    symm
    rw [List.filter_eq_self]
    intro e he
    rcases (Bool.or_eq_true _ _).mp h with h | h
    · have hnil : es.filter (fun e => e.tgt == u) = [] :=
        List.length_eq_zero.mp (beq_iff_eq.mp h)
      rw [hasEdgeB_false_of_no_tgt es u hnil e.src]
      rfl
    · have hnil : es.filter (fun e => e.src == u) = [] :=
        List.length_eq_zero.mp (beq_iff_eq.mp h)
      rw [hasEdgeB_false_of_no_src es u hnil e.tgt, Bool.and_false]
      rfl
  case isFalse h => rfl

theorem mem_pruneStep (es : List HDEdgeRec) (u : Nat) (e : HDEdgeRec) :
    e ∈ pruneStep es u ↔
      e ∈ es ∧ ¬(hasEdge es e.src u ∧ hasEdge es u e.tgt) := by
  rw [pruneStep_eq_filter, List.mem_filter]
  constructor
  · rintro ⟨hm, hb⟩
    refine ⟨hm, fun hc => ?_⟩
    rw [(hasEdgeB_iff es e.src u).mpr hc.1, (hasEdgeB_iff es u e.tgt).mpr hc.2] at hb
    exact Bool.false_ne_true hb
  · rintro ⟨hm, hn⟩
    refine ⟨hm, ?_⟩
    cases h1 : hasEdgeB es e.src u with
    | false => rfl
    | true =>
      cases h2 : hasEdgeB es u e.tgt with
      | false => rfl
      | true =>
        exact absurd ⟨(hasEdgeB_iff _ _ _).mp h1, (hasEdgeB_iff _ _ _).mp h2⟩ hn

theorem prunedEdges_zero (es0 : List HDEdgeRec) : prunedEdges es0 0 = es0 := rfl

theorem prunedEdges_succ (es0 : List HDEdgeRec) (t : Nat) :
    prunedEdges es0 (t + 1) = pruneStep (prunedEdges es0 t) t := by
  rw [prunedEdges, prunedEdges, List.range_succ, List.foldl_append]
  rfl

theorem prunedEdges_mono_succ (es0 : List HDEdgeRec) (t : Nat) (e : HDEdgeRec)
    (h : e ∈ prunedEdges es0 (t + 1)) : e ∈ prunedEdges es0 t := by
  rw [prunedEdges_succ] at h
  exact ((mem_pruneStep _ _ _).mp h).1

theorem prunedEdges_mono_mem (es0 : List HDEdgeRec) (e : HDEdgeRec) :
    ∀ {t t' : Nat}, t ≤ t' → e ∈ prunedEdges es0 t' → e ∈ prunedEdges es0 t := by
  intro t t' h
  induction h with
  | refl => exact id
  | step h2 ih =>
    intro hm
    exact ih (prunedEdges_mono_succ es0 _ e hm)

theorem prunedEdges_subset (es0 : List HDEdgeRec) (t : Nat) (e : HDEdgeRec)
    (h : e ∈ prunedEdges es0 t) : e ∈ es0 :=
  prunedEdges_mono_mem es0 e (Nat.zero_le t) h

theorem prunedEdges_drop (es0 : List HDEdgeRec) (t : Nat) (e : HDEdgeRec)
    (h0 : e ∈ es0) (hn : e ∉ prunedEdges es0 t) :
    ∃ w, w < t ∧ e ∈ prunedEdges es0 w ∧ e ∉ prunedEdges es0 (w + 1) := by
  induction t with
  | zero => exact absurd h0 hn
  | succ t ih =>
    by_cases hm : e ∈ prunedEdges es0 t
    · exact ⟨t, Nat.lt_succ_self t, hm, hn⟩
    · obtain ⟨w, hw, h1, h2⟩ := ih hm
      exact ⟨w, Nat.lt_succ_of_lt hw, h1, h2⟩

theorem removed_at (es0 : List HDEdgeRec) (t : Nat) (e : HDEdgeRec)
    (h1 : e ∈ prunedEdges es0 t) (h2 : e ∉ prunedEdges es0 (t + 1)) :
    hasEdge (prunedEdges es0 t) e.src t ∧ hasEdge (prunedEdges es0 t) t e.tgt := by
  rw [prunedEdges_succ] at h2
  by_contra hc
  exact h2 ((mem_pruneStep _ _ _).mpr ⟨h1, hc⟩)

theorem removal_executes (es0 : List HDEdgeRec) (t p q : Nat)
    (hp : hasEdge (prunedEdges es0 t) p t) (hq : hasEdge (prunedEdges es0 t) t q) :
    ¬ hasEdge (prunedEdges es0 (t + 1)) p q := by
  rintro ⟨e, hmem, hsrc, htgt⟩
  rw [prunedEdges_succ, mem_pruneStep] at hmem
  exact hmem.2 ⟨hsrc ▸ hp, htgt ▸ hq⟩

theorem hasEdge_pruned_subset (es0 : List HDEdgeRec) (t p q : Nat)
    (h : hasEdge (prunedEdges es0 t) p q) : hasEdge es0 p q := by
  obtain ⟨e, hm, hs, ht⟩ := h
  exact ⟨e, prunedEdges_subset es0 t e hm, hs, ht⟩

theorem hasEdge_pruned_mono (es0 : List HDEdgeRec) {t t' : Nat} (h : t ≤ t')
    {p q : Nat} (hE : hasEdge (prunedEdges es0 t') p q) :
    hasEdge (prunedEdges es0 t) p q := by
  obtain ⟨e, hm, hs, ht⟩ := hE
  exact ⟨e, prunedEdges_mono_mem es0 e h hm, hs, ht⟩

theorem hasEdge_lt (g : HDGraph) (hI : BuildInv g) {p q : Nat}
    (h : hasEdge g.edges p q) : p < q := by
  obtain ⟨e, he, hs, ht⟩ := h
  rw [← hs, ← ht]
  exact hI.src_lt e he

theorem hasEdge_tgt_lt (g : HDGraph) (hI : BuildInv g) {p q : Nat}
    (h : hasEdge g.edges p q) : q < g.verts.length := by
  obtain ⟨e, he, hs, ht⟩ := h
  rw [← ht]
  exact hI.tgt_lt e he

theorem hasEdge_incl (g : HDGraph) (hI : BuildInv g) {p q : Nat}
    (h : hasEdge g.edges p q) :
    is_included (charsOf g.verts p) (charsOf g.verts q) = true ∧
    (charsOf g.verts q).filter (fun c => !((charsOf g.verts p).contains c)) ≠ [] := by
  obtain ⟨e, he, hs, ht⟩ := h
  have hl := hI.label_sound e he
  rw [hs, ht] at hl
  exact ⟨hl.1, hl.2.1⟩

theorem filter_missing_trans (cw cu cq : List String)
    (hwu : is_included cw cu = true)
    (hfu : cq.filter (fun c => !(cu.contains c)) ≠ []) :
    cq.filter (fun c => !(cw.contains c)) ≠ [] := by
  obtain ⟨x, hx⟩ := List.exists_mem_of_ne_nil _ hfu
  obtain ⟨hxq, hxu⟩ := List.mem_filter.mp hx
  have hxu' : x ∉ cu := by
    intro hc
    rw [(contains_iff cu x).mpr hc] at hxu
    exact Bool.false_ne_true hxu
  have hxw : x ∉ cw := fun hc => hxu' ((is_included_iff cw cu).mp hwu x hc)
  have : x ∈ cq.filter (fun c => !(cw.contains c)) := by
    refine List.mem_filter.mpr ⟨hxq, ?_⟩
    cases hcw : cw.contains x with
    | false => rfl
    | true => exact absurd ((contains_iff cw x).mp hcw) hxw
  exact List.ne_nil_of_mem this

theorem prune_removes_two_paths (g : List (String × List String)) :
    ∀ u p q : Nat,
      hasEdge (buildDiagram g).edges p u →
      hasEdge (buildDiagram g).edges u q →
      ¬ hasEdge
        (prunedEdges (buildDiagram g).edges (buildDiagram g).verts.length) p q := by
  intro u
  induction u using Nat.strong_induction_on with
  | _ u ih =>
    intro p q hpu huq hfin
    have hI := buildDiagram_inv g
    have huq_lt : u < q := hasEdge_lt _ hI huq
    have hqN : q < (buildDiagram g).verts.length := hasEdge_tgt_lt _ hI huq
    have huN : u < (buildDiagram g).verts.length := Nat.lt_trans huq_lt hqN
    by_cases hpu_cur : hasEdge (prunedEdges (buildDiagram g).edges u) p u
    · by_cases huq_cur : hasEdge (prunedEdges (buildDiagram g).edges u) u q
      · have hrem := removal_executes (buildDiagram g).edges u p q hpu_cur huq_cur
        exact hrem (hasEdge_pruned_mono _ (Nat.succ_le_of_lt huN) hfin)
      · obtain ⟨e, he0, hsrc, htgt⟩ := huq
        have hnotin : e ∉ prunedEdges (buildDiagram g).edges u := fun hmem =>
          huq_cur ⟨e, hmem, hsrc, htgt⟩
        obtain ⟨w, hwu, hin, hout⟩ := prunedEdges_drop _ u e he0 hnotin
        obtain ⟨hw1, _⟩ := removed_at _ w e hin hout
        rw [hsrc] at hw1
        have hle : u < w :=
          hasEdge_lt _ hI (hasEdge_pruned_subset _ w u w hw1)
        exact absurd hwu (Nat.not_lt.mpr (Nat.le_of_lt hle))
    · obtain ⟨e, he0, hsrc, htgt⟩ := hpu
      have hnotin : e ∉ prunedEdges (buildDiagram g).edges u := fun hmem =>
        hpu_cur ⟨e, hmem, hsrc, htgt⟩
      obtain ⟨w, hwu, hin, hout⟩ := prunedEdges_drop _ u e he0 hnotin
      obtain ⟨hw1, hw2⟩ := removed_at _ w e hin hout
      rw [hsrc] at hw1
      rw [htgt] at hw2
      have hpw : hasEdge (buildDiagram g).edges p w :=
        hasEdge_pruned_subset _ w p w hw1
      have hwu0 : hasEdge (buildDiagram g).edges w u :=
        hasEdge_pruned_subset _ w w u hw2
      have hw_lt_q : w < q := Nat.lt_trans (hasEdge_lt _ hI hwu0) huq_lt
      have hincl_wu := hasEdge_incl _ hI hwu0
      have hincl_uq := hasEdge_incl _ hI huq
      have hincl_wq : is_included (charsOf (buildDiagram g).verts w)
          (charsOf (buildDiagram g).verts q) = true :=
        is_included_trans hincl_wu.1 hincl_uq.1
      have hfil_wq := filter_missing_trans _ _ _ hincl_wu.1 hincl_uq.2
      have hwq : hasEdge (buildDiagram g).edges w q :=
        hI.complete w q hw_lt_q hqN hincl_wq hfil_wq
      exact ih w hwu p q hpw hwq hfin

end PPP

namespace PPP

/-! Claim C1. -/

theorem hasse_diagram_verts (g : List (String × List String)) :
    (hasse_diagram g).verts = (buildDiagram g).verts := rfl

theorem hasse_diagram_edges (g : List (String × List String)) :
    (hasse_diagram g).edges =
      prunedEdges (buildDiagram g).edges (buildDiagram g).verts.length := rfl

theorem filter_ne_nil_exists (cu cv : List String)
    (h : cv.filter (fun c => !(cu.contains c)) ≠ []) :
    ∃ c ∈ cv, c ∉ cu := by
  obtain ⟨x, hx⟩ := List.exists_mem_of_ne_nil _ h
  obtain ⟨hxv, hxu⟩ := List.mem_filter.mp hx
  refine ⟨x, hxv, fun hc => ?_⟩
  rw [(contains_iff cu x).mpr hc] at hxu
  exact Bool.false_ne_true hxu

/-- C1 counterexample: for the species s1 with character list [c] and s2
with adjacency-ordered character list [c, b, a], the built diagram's only
edge is labeled b+ a+ (the order the characters appear in s2's adjacency),
not the lexicographically sorted a+ b+ that the claim prescribes. -/
theorem hasse_edge_label_not_sorted :
    (hasse_diagram [("s1", ["c"]), ("s2", ["c", "b", "a"])]).edges =
      [⟨0, 1, [⟨"b", State.gain⟩, ⟨"a", State.gain⟩]⟩] ∧
    sortedGainLabel
        (charsOf (hasse_diagram [("s1", ["c"]), ("s2", ["c", "b", "a"])]).verts 0)
        (charsOf (hasse_diagram [("s1", ["c"]), ("s2", ["c", "b", "a"])]).verts 1) =
      [⟨"a", State.gain⟩, ⟨"b", State.gain⟩] ∧
    ([(⟨"b", State.gain⟩ : SignedCharacter), ⟨"a", State.gain⟩]) ≠
      [(⟨"a", State.gain⟩ : SignedCharacter), ⟨"b", State.gain⟩] := by
  refine ⟨by decide, by decide, by decide⟩

/-- C1 amended: for every edge (u -> v) of the built diagram, the character
set of u is strictly included in the character set of v, and the edge's
signed-character list is the list of names of characters(v) minus
characters(u) in the order they appear in characters(v) (the species'
adjacency order, not sorted lexicographically), each tagged gain. -/
theorem hasse_edge_strict_inclusion_label (g : List (String × List String)) :
    ∀ e ∈ (hasse_diagram g).edges,
      (∀ c ∈ charsOf (hasse_diagram g).verts e.src,
        c ∈ charsOf (hasse_diagram g).verts e.tgt) ∧
      (∃ c ∈ charsOf (hasse_diagram g).verts e.tgt,
        c ∉ charsOf (hasse_diagram g).verts e.src) ∧
      e.signedcharacters =
        gainLabel (charsOf (hasse_diagram g).verts e.src)
          (charsOf (hasse_diagram g).verts e.tgt) := by
  intro e he
  have hI := buildDiagram_inv g
  rw [hasse_diagram_edges] at he
  have he0 : e ∈ (buildDiagram g).edges := prunedEdges_subset _ _ e he
  obtain ⟨h1, h2, h3⟩ := hI.label_sound e he0
  rw [hasse_diagram_verts]
  exact ⟨(is_included_iff _ _).mp h1, filter_ne_nil_exists _ _ h2, h3⟩

/-- C1 amended witness: the single edge of the diagram for species s1 with
characters [a] and s2 with characters [a, b]. -/
theorem hasse_edge_strict_inclusion_label_witness :
    ((⟨0, 1, [⟨"b", State.gain⟩]⟩ : HDEdgeRec) ∈
      (hasse_diagram [("s1", ["a"]), ("s2", ["a", "b"])]).edges) ∧
    ((∀ c ∈ charsOf (hasse_diagram [("s1", ["a"]), ("s2", ["a", "b"])]).verts
        (HDEdgeRec.mk 0 1 [⟨"b", State.gain⟩]).src,
      c ∈ charsOf (hasse_diagram [("s1", ["a"]), ("s2", ["a", "b"])]).verts
        (HDEdgeRec.mk 0 1 [⟨"b", State.gain⟩]).tgt) ∧
    (∃ c ∈ charsOf (hasse_diagram [("s1", ["a"]), ("s2", ["a", "b"])]).verts
        (HDEdgeRec.mk 0 1 [⟨"b", State.gain⟩]).tgt,
      c ∉ charsOf (hasse_diagram [("s1", ["a"]), ("s2", ["a", "b"])]).verts
        (HDEdgeRec.mk 0 1 [⟨"b", State.gain⟩]).src) ∧
    (HDEdgeRec.mk 0 1 [⟨"b", State.gain⟩]).signedcharacters =
      gainLabel
        (charsOf (hasse_diagram [("s1", ["a"]), ("s2", ["a", "b"])]).verts
          (HDEdgeRec.mk 0 1 [⟨"b", State.gain⟩]).src)
        (charsOf (hasse_diagram [("s1", ["a"]), ("s2", ["a", "b"])]).verts
          (HDEdgeRec.mk 0 1 [⟨"b", State.gain⟩]).tgt)) :=
  ⟨by decide,
    hasse_edge_strict_inclusion_label [("s1", ["a"]), ("s2", ["a", "b"])]
      ⟨0, 1, [⟨"b", State.gain⟩]⟩ (by decide)⟩

end PPP

namespace PPP

/-! Claim C2. -/

instance hasEdgeDecidable (es : List HDEdgeRec) (p q : Nat) :
    Decidable (hasEdge es p q) :=
  decidable_of_iff (hasEdgeB es p q = true) (hasEdgeB_iff es p q)

instance edgeRelDecidable (h : HDGraph) (p q : Nat) :
    Decidable (h.edgeRel p q) :=
  hasEdgeDecidable h.edges p q

theorem edgeRel_final_E0 (g : List (String × List String)) {p q : Nat}
    (h : (hasse_diagram g).edgeRel p q) : hasEdge (buildDiagram g).edges p q := by
  rw [HDGraph.edgeRel, hasse_diagram_edges] at h
  exact hasEdge_pruned_subset _ _ p q h

theorem transGen_closure (g : List (String × List String)) {w q : Nat}
    (h : Relation.TransGen (hasse_diagram g).edgeRel w q) :
    w < q ∧ q < (buildDiagram g).verts.length ∧
    is_included (charsOf (buildDiagram g).verts w)
      (charsOf (buildDiagram g).verts q) = true ∧
    (charsOf (buildDiagram g).verts q).filter
      (fun c => !((charsOf (buildDiagram g).verts w).contains c)) ≠ [] := by
  have hI := buildDiagram_inv g
  induction h with
  | single h1 =>
    have h0 := edgeRel_final_E0 g h1
    exact ⟨hasEdge_lt _ hI h0, hasEdge_tgt_lt _ hI h0,
      (hasEdge_incl _ hI h0).1, (hasEdge_incl _ hI h0).2⟩
  | tail hwx hxq ih =>
    have h0 := edgeRel_final_E0 g hxq
    exact ⟨Nat.lt_trans ih.1 (hasEdge_lt _ hI h0), hasEdge_tgt_lt _ hI h0,
      is_included_trans ih.2.2.1 (hasEdge_incl _ hI h0).1,
      filter_missing_trans _ _ _ ih.2.2.1 (hasEdge_incl _ hI h0).2⟩

/-- C2: the diagram built by hasse_diagram is acyclic, and for no pair of
vertices (p, q) does the diagram hold both a direct edge p -> q and a
directed path from p to q of length at least two (the final loop of
hasse_diagram removes every such transitive edge). -/
theorem hasse_acyclic_transitively_reduced (g : List (String × List String)) :
    (∀ v : Nat, ¬ Relation.TransGen (hasse_diagram g).edgeRel v v) ∧
    (∀ p q : Nat, (hasse_diagram g).edgeRel p q →
      ¬ ∃ w, (hasse_diagram g).edgeRel p w ∧
        Relation.TransGen (hasse_diagram g).edgeRel w q) := by
  have hI := buildDiagram_inv g
  constructor
  · intro v hcyc
    have hlt : ∀ a b : Nat, Relation.TransGen (hasse_diagram g).edgeRel a b →
        a < b := by
      intro a b h
      induction h with
      | single h1 => exact hasEdge_lt _ hI (edgeRel_final_E0 g h1)
      | tail hax hxb ih =>
        exact Nat.lt_trans ih (hasEdge_lt _ hI (edgeRel_final_E0 g hxb))
    exact Nat.lt_irrefl v (hlt v v hcyc)
  · rintro p q hpq ⟨w, hpw, hwq⟩
    obtain ⟨hwq_lt, hqN, hincl, hfil⟩ := transGen_closure g hwq
    have hpw0 := edgeRel_final_E0 g hpw
    have hE0wq : hasEdge (buildDiagram g).edges w q :=
      hI.complete w q hwq_lt hqN hincl hfil
    have hrem := prune_removes_two_paths g w p q hpw0 hE0wq
    rw [HDGraph.edgeRel, hasse_diagram_edges] at hpq
    exact hrem hpq

/-- C2 witness: in the chain diagram for character sets [c1], [c1, c2],
[c1, c2, c3] the direct edge 0 -> 1 exists and no length-two-or-more path
doubles it. -/
theorem hasse_acyclic_transitively_reduced_witness :
    ((hasse_diagram
        [("s1", ["c1"]), ("s2", ["c1", "c2"]),
          ("s3", ["c1", "c2", "c3"])]).edgeRel 0 1) ∧
    ¬ ∃ w, (hasse_diagram
        [("s1", ["c1"]), ("s2", ["c1", "c2"]),
          ("s3", ["c1", "c2", "c3"])]).edgeRel 0 w ∧
      Relation.TransGen
        (hasse_diagram
          [("s1", ["c1"]), ("s2", ["c1", "c2"]),
            ("s3", ["c1", "c2", "c3"])]).edgeRel w 1 :=
  ⟨by decide,
    (hasse_acyclic_transitively_reduced
      [("s1", ["c1"]), ("s2", ["c1", "c2"]), ("s3", ["c1", "c2", "c3"])]).2
      0 1 (by decide)⟩

end PPP

namespace PPP

/-! Claim C3. -/

theorem charsOf_unique (g : HDGraph) (hI : BuildInv g) {i j : Nat}
    (hi : i < g.verts.length) (hj : j < g.verts.length)
    (h : charsOf g.verts i = charsOf g.verts j) : i = j := by
  rcases Nat.lt_trichotomy i j with hlt | heq | hgt
  · exact absurd h (hI.distinct i j hlt hj)
  · exact heq
  · exact absurd h.symm (hI.distinct j i hgt hi)

theorem hasse_same_list_common_vertex (g : List (String × List String))
    (n1 n2 : String) (L : List String) (h1 : (n1, L) ∈ g)
    (h2 : (n2, L) ∈ g) :
    ∃ i, i < (hasse_diagram g).verts.length ∧
      charsOf (hasse_diagram g).verts i = L ∧
      n1 ∈ speciesOf (hasse_diagram g).verts i ∧
      n2 ∈ speciesOf (hasse_diagram g).verts i ∧
      ∀ j, j < (hasse_diagram g).verts.length →
        charsOf (hasse_diagram g).verts j = L → j = i := by
  have hS := buildDiagram_species g
  have hI := buildDiagram_inv g
  rw [hasse_diagram_verts]
  obtain ⟨i1, hi1, hc1, hm1⟩ :=
    hS (n1, L) ((List.mem_insertionSort sizeLE).mpr h1)
  obtain ⟨i2, hi2, hc2, hm2⟩ :=
    hS (n2, L) ((List.mem_insertionSort sizeLE).mpr h2)
  have heq : i2 = i1 :=
    charsOf_unique _ hI hi2 hi1 (hc2.trans hc1.symm)
  refine ⟨i1, hi1, hc1, hm1, heq ▸ hm2, fun j hj hcj => ?_⟩
  exact charsOf_unique _ hI hj hi1 (hcj.trans hc1.symm)

theorem buildStep_collapse_uniform (g : HDGraph) (s : String × List String)
    (hmap : g.verts.map (fun v => v.characters) = [s.2]) :
    (buildStep g s).verts.map (fun v => v.characters) = [s.2] ∧
    (buildStep g s).edges = g.edges := by
  cases hv : g.verts with
  | nil => rw [hv] at hmap; exact absurd hmap (by simp)
  | cons v0 rest =>
    cases rest with
    | cons v1 rest2 =>
      rw [hv] at hmap
      exact absurd (congrArg List.length hmap) (by simp)
    | nil =>
      rw [hv] at hmap
      have hvc : v0.characters = s.2 := by
        have := congrArg (fun l => l.headD ([] : List String)) hmap
        simpa using this
      have hfind : findEqChars g.verts s.2 = some 0 := by
        rw [hv]
        show (if (v0.characters == s.2) = true then some 0
          else (findEqChars [] s.2).map (fun i => i + 1)) = some 0
        rw [if_pos (beq_iff_eq.mpr hvc)]
      obtain ⟨hvv, hee, _⟩ := buildStep_some g s 0 hfind
      constructor
      · rw [hvv, hv]
        show [v0.characters] = [s.2]
        rw [hvc]
      · exact hee

theorem build_uniform_fold (L : List String) (l : List (String × List String)) :
    (∀ p ∈ l, p.2 = L) →
    ∀ g : HDGraph, g.verts.map (fun v => v.characters) = [L] →
    (l.foldl buildStep g).verts.map (fun v => v.characters) = [L] ∧
    (l.foldl buildStep g).edges = g.edges := by
  induction l with
  | nil => intro _ g hg; exact ⟨hg, rfl⟩
  | cons s rest ih =>
    intro hall g hg
    have hs2 : s.2 = L := hall s (List.mem_cons_self s rest)
    have hstep := buildStep_collapse_uniform g s (by rw [hs2]; exact hg)
    obtain ⟨ha, hb⟩ := ih (fun p hp => hall p (List.mem_cons_of_mem s hp))
      (buildStep g s) (hs2 ▸ hstep.1)
    exact ⟨ha, hb.trans hstep.2⟩

theorem prunedEdges_nil (t : Nat) : prunedEdges [] t = [] := by
  induction t with
  | zero => rfl
  | succ t ih => rw [prunedEdges_succ, ih]; rfl

theorem hasse_uniform_two (n1 n2 : String) (L : List String) :
    (hasse_diagram [(n1, L), (n2, L)]).verts.map (fun v => v.characters) = [L] ∧
    (hasse_diagram [(n1, L), (n2, L)]).edges = [] := by
  have hall : ∀ p ∈ List.insertionSort sizeLE [(n1, L), (n2, L)], p.2 = L := by
    intro p hp
    have hp' := (List.mem_insertionSort sizeLE).mp hp
    rcases List.mem_cons.mp hp' with h | h
    · rw [h]
    · rw [List.mem_singleton.mp h]
  have hlen : (List.insertionSort sizeLE [(n1, L), (n2, L)]).length = 2 :=
    (List.perm_insertionSort sizeLE _).length_eq
  cases hsl2 : List.insertionSort sizeLE [(n1, L), (n2, L)] with
  | nil => rw [hsl2] at hlen; exact absurd hlen (by decide)
  | cons s0 rest =>
    have h02 : s0.2 = L := hall s0 (hsl2 ▸ List.mem_cons_self s0 rest)
    have hfirst_verts :
        (buildStep ⟨[], [], 0⟩ s0).verts.map (fun v => v.characters) = [L] := by
      have hfind : findEqChars ([] : List HDVertexProps) s0.2 = none := rfl
      obtain ⟨hv, _, _⟩ := buildStep_none ⟨[], [], 0⟩ s0 hfind
        (fun e he => absurd he (List.not_mem_nil e))
      rw [hv]
      show [s0.2] = [L]
      rw [h02]
    have hfirst_edges : (buildStep ⟨[], [], 0⟩ s0).edges = [] := by
      have hfind : findEqChars ([] : List HDVertexProps) s0.2 = none := rfl
      obtain ⟨_, he, _⟩ := buildStep_none ⟨[], [], 0⟩ s0 hfind
        (fun e he => absurd he (List.not_mem_nil e))
      rw [he]
      rfl
    obtain ⟨hm, he⟩ := build_uniform_fold L rest
      (fun p hp => hall p (hsl2 ▸ List.mem_cons_of_mem s0 hp))
      (buildStep ⟨[], [], 0⟩ s0) hfirst_verts
    have hbd : buildDiagram [(n1, L), (n2, L)] =
        rest.foldl buildStep (buildStep ⟨[], [], 0⟩ s0) := by
      rw [buildDiagram, hsl2]
      rfl
    constructor
    · rw [hasse_diagram_verts, hbd]
      exact hm
    · rw [hasse_diagram_edges, hbd, he, hfirst_edges, prunedEdges_nil]

/-- C3 amended: species whose adjacency character lists are identical as
ordered lists collapse into one Hasse vertex carrying both their names
(species with equal character sets listed in different orders are NOT
collapsed, as the counterexample shows); in particular, two species both
carrying one common list produce a single vertex listing both species and
zero edges. -/
theorem hasse_collapse_equal_lists :
    (∀ (g : List (String × List String)) (n1 n2 : String) (L : List String),
      (n1, L) ∈ g → (n2, L) ∈ g →
      ∃ i, i < (hasse_diagram g).verts.length ∧
        charsOf (hasse_diagram g).verts i = L ∧
        n1 ∈ speciesOf (hasse_diagram g).verts i ∧
        n2 ∈ speciesOf (hasse_diagram g).verts i ∧
        ∀ j, j < (hasse_diagram g).verts.length →
          charsOf (hasse_diagram g).verts j = L → j = i) ∧
    (∀ (n1 n2 : String) (L : List String),
      (hasse_diagram [(n1, L), (n2, L)]).verts.length = 1 ∧
      (hasse_diagram [(n1, L), (n2, L)]).edges = [] ∧
      n1 ∈ speciesOf (hasse_diagram [(n1, L), (n2, L)]).verts 0 ∧
      n2 ∈ speciesOf (hasse_diagram [(n1, L), (n2, L)]).verts 0) := by
  constructor
  · exact hasse_same_list_common_vertex
  · intro n1 n2 L
    obtain ⟨hm, he⟩ := hasse_uniform_two n1 n2 L
    have hlen : (hasse_diagram [(n1, L), (n2, L)]).verts.length = 1 := by
      have := congrArg List.length hm
      simpa using this
    obtain ⟨i, hi, _, hn1, hn2, _⟩ :=
      hasse_same_list_common_vertex [(n1, L), (n2, L)] n1 n2 L
        (List.mem_cons_self _ _)
        (List.mem_cons_of_mem _ (List.mem_singleton.mpr rfl))
    rw [hlen] at hi
    have hi0 : i = 0 := Nat.lt_one_iff.mp hi
    rw [hi0] at hn1 hn2
    exact ⟨hlen, he, hn1, hn2⟩

/-- C3 counterexample: the species s1 with adjacency list [a, b] and s2
with adjacency list [b, a] have identical character SETS, yet hasse_diagram
builds two separate vertices (the collapse test at hdgraph.cpp line 245
compares std::list values element-wise), refuting the claim as stated. -/
theorem hasse_collapse_not_by_set :
    (hasse_diagram [("s1", ["a", "b"]), ("s2", ["b", "a"])]).verts =
      [⟨["s1"], ["a", "b"]⟩, ⟨["s2"], ["b", "a"]⟩] ∧
    (hasse_diagram [("s1", ["a", "b"]), ("s2", ["b", "a"])]).verts.length ≠ 1 ∧
    (["a", "b"] : List String).Perm ["b", "a"] :=
  ⟨by decide, by decide, by decide⟩

/-- C3 amended witness: two species both adjacent to exactly [c1, c2] in
the same order end in one vertex listing both, with zero edges. -/
theorem hasse_collapse_equal_lists_witness :
    (("s1", ["c1", "c2"]) ∈
        ([("s1", ["c1", "c2"]), ("s2", ["c1", "c2"])] :
          List (String × List String))) ∧
    (("s2", ["c1", "c2"]) ∈
        ([("s1", ["c1", "c2"]), ("s2", ["c1", "c2"])] :
          List (String × List String))) ∧
    (∃ i, i < (hasse_diagram
        [("s1", ["c1", "c2"]), ("s2", ["c1", "c2"])]).verts.length ∧
      charsOf (hasse_diagram
        [("s1", ["c1", "c2"]), ("s2", ["c1", "c2"])]).verts i = ["c1", "c2"] ∧
      "s1" ∈ speciesOf (hasse_diagram
        [("s1", ["c1", "c2"]), ("s2", ["c1", "c2"])]).verts i ∧
      "s2" ∈ speciesOf (hasse_diagram
        [("s1", ["c1", "c2"]), ("s2", ["c1", "c2"])]).verts i ∧
      ∀ j, j < (hasse_diagram
          [("s1", ["c1", "c2"]), ("s2", ["c1", "c2"])]).verts.length →
        charsOf (hasse_diagram
          [("s1", ["c1", "c2"]), ("s2", ["c1", "c2"])]).verts j =
            ["c1", "c2"] → j = i) :=
  ⟨by decide, by decide,
    hasse_collapse_equal_lists.1
      [("s1", ["c1", "c2"]), ("s2", ["c1", "c2"])] "s1" "s2" ["c1", "c2"]
      (by decide) (by decide)⟩

end PPP
